import Mathlib

/-!
Verification of the digit-codec, batch-synthesis and curriculum-training logic of the
arithmetic-transformer repository (src/dataset.py and src/train.py).

Modelling conventions:
* integer tensors become `List Nat` (1-D) and `List (List Nat)` (2-D, row major);
  every value manipulated by the program is a non-negative machine integer;
* the random draws of `torch.randint` inside `make_digits_random_length` are passed in
  explicitly as oracle arguments (the raw digit matrix and the per-row prefix lengths),
  so `generate_batch` becomes a pure function of the dataset state and the draws;
* floating-point validation accuracies are modelled as exact rationals (`Rat`); the
  comparisons involved (0.5, 0.95 against the 0.9 threshold) are far from the rounding
  error of IEEE doubles, so the rational model agrees with the float execution;
* the external neural model of train.py is an oracle: the per-epoch mean validation
  accuracy stream is an input list, and one epoch of the manual training loop becomes a
  state transition on (number_length, time_to_success).
-/

/-- Mirrors the while loop of `int_to_digits` in src/dataset.py:
`while n > 0: digits.append(n % base); n //= base`.
The loop is embedded with explicit fuel; `fuel = n` iterations always suffice for
`base ≥ 2` because the loop variable strictly decreases (this adequacy is proved below
by comparison with `Nat.digits`).  For `base ≤ 1` the source loop never terminates, so
no claim constrains that case. -/
def digitsLoop (base : Nat) : Nat → Nat → List Nat
  | _, 0 => []
  | 0, _ + 1 => []
  | fuel + 1, n + 1 => ((n + 1) % base) :: digitsLoop base fuel ((n + 1) / base)

/-- Mirrors `int_to_digits(n, base)` of src/dataset.py: run the division loop, then
`return digits or [0]` (the empty list is replaced by `[0]`). -/
def int_to_digits (n : Nat) (base : Nat) : List Nat :=
  match digitsLoop base n n with
  | [] => [0]
  | d :: ds => d :: ds

/-- Mirrors `digits_to_int(digits, base)` of src/dataset.py:
`for digit in list(digits)[::-1]: n = n * base + digit`. -/
def digits_to_int (digits : List Nat) (base : Nat) : Nat :=
  digits.reverse.foldl (fun n digit => n * base + digit) 0

/-- One row of `numbers_to_digits` in src/dataset.py: the digits of `n`, right aligned
in `max_length` columns, column `j` carrying positional weight
`base ^ (max_length - 1 - j)`, computed as `(tensor // bases) % base`. -/
def digitRow (n base max_length : Nat) : List Nat :=
  (List.range max_length).map (fun j => n / base ^ (max_length - 1 - j) % base)

/-- Mirrors `numbers_to_digits(tensor, base, max_length)` of src/dataset.py, applied to
every entry of the batch. -/
def numbers_to_digits (tensor : List Nat) (base : Nat) (max_length : Nat) : List (List Nat) :=
  tensor.map (fun n => digitRow n base max_length)

/-- Mirrors `digits_to_numbers(digits, base)` of src/dataset.py: `max_length` is the
column count (`digits.size(1)`, the length of the first row for a rectangular matrix)
and each row is reduced by the weighted sum `(digits * bases).sum(dim=1)` with the same
descending positional weights. -/
def digits_to_numbers (digits : List (List Nat)) (base : Nat) : List Nat :=
  let max_length := (digits.headD []).length
  digits.map (fun row =>
    (List.zipWith (fun d k => d * base ^ k) row (List.range max_length).reverse).sum)

/-- The weighted digit sum of one row against descending powers of the base; this is the
row computation of `digits_to_numbers` specialised to the length of the row itself. -/
def rowVal (base : Nat) (row : List Nat) : Nat :=
  (List.zipWith (fun d k => d * base ^ k) row (List.range row.length).reverse).sum

/-- Mirrors `make_digits_random_length(bs, base, max_number_length)` of src/dataset.py.
The two `torch.randint` draws are explicit oracle inputs: `raw` is the `(bs,
max_number_length)` matrix of uniform digits and `n_digits` the per-row prefix lengths;
the mask `arange(max_number_length) < n_digits[:, None]` zeroes a leading prefix of each
row. -/
def make_digits_random_length (max_number_length : Nat) (raw : List (List Nat))
    (n_digits : List Nat) : List (List Nat) :=
  List.zipWith
    (fun row n => (List.range max_number_length).map (fun j => if j < n then 0 else row.getD j 0))
    raw n_digits

/-- The keying pass of `move_padding_to_end` in src/dataset.py: the sorting tensor
assigns to a non-padding value at column `off` the key `off`, and to every padding value
the key `row_len` (`tensor.size(1)`), via
`non_padding_mask * arange(size) + (~non_padding_mask) * size`.  The column offset is an
explicit argument so that the recursion can walk the row. -/
def sortingKeys (padding_token row_len off : Nat) : List Nat → List (Nat × Nat)
  | [] => []
  | v :: rest =>
    (if v ≠ padding_token then off else row_len, v) :: sortingKeys padding_token row_len (off + 1) rest

/-- Comparison on (key, value) pairs used to sort a keyed row ascending by key. -/
abbrev keyLE (a b : Nat × Nat) : Prop := a.1 ≤ b.1

/-- One row of `move_padding_to_end` of src/dataset.py: key the row, sort ascending by
key (`sorting_tensor.sort(dim=1)`), and gather the values back in sorted key order
(`torch.gather`).  All padding keys are equal and carry the identical padding value, so
every correct sort produces the same row; `List.insertionSort` realises it. -/
def move_padding_to_end_row (row : List Nat) (padding_token : Nat) : List Nat :=
  (List.insertionSort keyLE (sortingKeys padding_token row.length 0 row)).map Prod.snd

/-- Mirrors `move_padding_to_end(tensor, padding_token)` of src/dataset.py, applied
row-wise. -/
def move_padding_to_end (tensor : List (List Nat)) (padding_token : Nat) : List (List Nat) :=
  tensor.map (fun row => move_padding_to_end_row row padding_token)

/-- One row of `leading_zeros_to_padding_(digits, padding_token)` of src/dataset.py:
position `j` is masked to the padding token exactly when the inclusive prefix sum
`digits.cumsum(1)` is zero at `j` (all digits up to `j` are zero, the entries being
non-negative) and `j` is not the last column (`mask[:, -1] = False`). -/
def leading_zeros_to_padding_row (row : List Nat) (padding_token : Nat) : List Nat :=
  (List.range row.length).map (fun j =>
    if (row.take (j + 1)).sum = 0 ∧ j + 1 ≠ row.length then padding_token else row.getD j 0)

/-- Mirrors `leading_zeros_to_padding_` of src/dataset.py row-wise (the in-place update
is modelled functionally, returning the new matrix). -/
def leading_zeros_to_padding (digits : List (List Nat)) (padding_token : Nat) :
    List (List Nat) :=
  digits.map (fun row => leading_zeros_to_padding_row row padding_token)

/-- The state stored by `AdditionDataset.__init__` in src/dataset.py (the four token ids
and `sequence_length` are derived below, exactly as `__init__` computes them). -/
structure AdditionDataset where
  num_samples : Nat
  base : Nat
  number_length : Nat

/-- `self.sequence_length = 2`, set unconditionally by `__init__`. -/
def AdditionDataset.sequence_length (_ : AdditionDataset) : Nat := 2

/-- `self.end_token = base`. -/
def AdditionDataset.end_token (ds : AdditionDataset) : Nat := ds.base

/-- `self.separator_token = base + 1`. -/
def AdditionDataset.separator_token (ds : AdditionDataset) : Nat := ds.base + 1

/-- `self.padding_token = base + 2`. -/
def AdditionDataset.padding_token (ds : AdditionDataset) : Nat := ds.base + 2

/-- `self.eos_token = base + 3`. -/
def AdditionDataset.eos_token (ds : AdditionDataset) : Nat := ds.base + 3

/-- `max_input_length = sequence_length * (number_length + 1)`. -/
def AdditionDataset.max_input_length (ds : AdditionDataset) : Nat :=
  ds.sequence_length * (ds.number_length + 1)

/-- `max_output_length = len(int_to_digits(sequence_length * base ** number_length, base)) + 1`. -/
def AdditionDataset.max_output_length (ds : AdditionDataset) : Nat :=
  (int_to_digits (ds.sequence_length * ds.base ^ ds.number_length) ds.base).length + 1

/-- `seq = max_input_length + max_output_length`. -/
def AdditionDataset.seq (ds : AdditionDataset) : Nat :=
  ds.max_input_length + ds.max_output_length

/-- Column-wise concatenation of two batches of rows: `torch.cat([a, b], dim=1)`. -/
def hcat (a b : List (List Nat)) : List (List Nat) :=
  List.zipWith (fun r s => r ++ s) a b

/-- The `sums` intermediate of `generate_batch` in src/dataset.py: the two operand
batches are decoded and added element-wise. -/
def AdditionDataset.gb_sums (ds : AdditionDataset) (raw0 raw1 : List (List Nat))
    (n0 n1 : List Nat) : List Nat :=
  List.zipWith (fun a b => a + b)
    (digits_to_numbers (make_digits_random_length ds.number_length raw0 n0) ds.base)
    (digits_to_numbers (make_digits_random_length ds.number_length raw1 n1) ds.base)

/-- The `out_digits` intermediate of `generate_batch`, before the leading-zero to
padding replacement: `numbers_to_digits(sums, base, max_length=number_length + 1)`. -/
def AdditionDataset.gb_out_digits (ds : AdditionDataset) (raw0 raw1 : List (List Nat))
    (n0 n1 : List Nat) : List (List Nat) :=
  numbers_to_digits (ds.gb_sums raw0 raw1 n0 n1) ds.base (ds.number_length + 1)

/-- Mirrors `AdditionDataset.generate_batch(bs)` of src/dataset.py with the four random
draws passed explicitly: build the two operand batches, compute the output digits of the
sums, replace leading zeros by padding in all three blocks, concatenate
`[in0, separator, in1, end, out, eos]` column-wise, and move padding to the end. -/
def AdditionDataset.generate_batch (ds : AdditionDataset) (bs : Nat)
    (raw0 raw1 : List (List Nat)) (n0 n1 : List Nat) : List (List Nat) :=
  let in_digits0 := make_digits_random_length ds.number_length raw0 n0
  let in_digits1 := make_digits_random_length ds.number_length raw1 n1
  let out_digits := ds.gb_out_digits raw0 raw1 n0 n1
  let res :=
    hcat (leading_zeros_to_padding in_digits0 ds.padding_token)
      (hcat (List.replicate bs [ds.separator_token])
        (hcat (leading_zeros_to_padding in_digits1 ds.padding_token)
          (hcat (List.replicate bs [ds.end_token])
            (hcat (leading_zeros_to_padding out_digits ds.padding_token)
              (List.replicate bs [ds.eos_token])))))
  move_padding_to_end res ds.padding_token

/-- The curriculum state owned by the manual training loop of src/train.py:
`dataset.number_length` and the `time_to_success` counter (a total function modelling
`collections.Counter`, zero by default). -/
structure TrainState where
  number_length : Nat
  time_to_success : Nat → Nat

/-- One epoch of the loop body of `manual_training` in src/train.py, with the mean
validation accuracy of the epoch supplied by the model oracle:
`time_to_success[dataset.number_length] += 1`, then
`if acc > .9: dataset.number_length += 1`. -/
def epoch_update (s : TrainState) (acc : Rat) : TrainState :=
  let t := fun k => if k = s.number_length then s.time_to_success k + 1 else s.time_to_success k
  if acc > 9 / 10 then
    { number_length := s.number_length + 1, time_to_success := t }
  else
    { number_length := s.number_length, time_to_success := t }

/-- The epoch loop of `manual_training` of src/train.py over a finite stream of
per-epoch mean validation accuracies. -/
def manual_training_loop (accs : List Rat) (s : TrainState) : TrainState :=
  accs.foldl epoch_update s

/-- The keyword parameters accepted by `AdditionDataset.__init__` in src/dataset.py
(besides `self`): `num_samples`, `base`, `number_length`. -/
def additionDatasetInitParams : List String :=
  ["num_samples", "base", "number_length"]

/-- The keyword arguments of the `AdditionDataset(...)` call in `main` of src/train.py
(the sample count is passed positionally; `base`, `number_length` and `sequence_length`
are passed by keyword). -/
def mainDatasetCallKeywords : List String :=
  ["base", "number_length", "sequence_length"]

/-- Python keyword binding for a call: every keyword argument must name a declared
parameter, otherwise the call raises `TypeError` before the callee body runs. -/
def pythonCallBinds (params keywords : List String) : Bool :=
  keywords.all (fun k => params.contains k)

/-- The dataset-construction step of `main` in src/train.py: it is the first statement
after argument parsing, before `AdditionModel` is created and before any training; it
succeeds only if the keyword arguments bind to the parameters of
`AdditionDataset.__init__`. -/
def main_dataset_construction : Except String AdditionDataset :=
  if pythonCallBinds additionDatasetInitParams mainDatasetCallKeywords then
    Except.ok { num_samples := 10 ^ 6, base := 10, number_length := 1 }
  else
    Except.error "TypeError"

/-! ### Digit codec: scalar round trip -/

/-- Adequacy of the fuel embedding of the division loop: with at least `n` units of
fuel and `base ≥ 2`, `digitsLoop` computes the canonical least-significant-first digit
expansion `Nat.digits`. -/
theorem digitsLoop_eq_digits (b : Nat) (hb : 2 ≤ b) :
    ∀ fuel n, n ≤ fuel → digitsLoop b fuel n = Nat.digits b n := by
  intro fuel
  induction fuel with
  | zero =>
    intro n hn
    interval_cases n
    simp [digitsLoop]
  | succ fuel ih =>
    intro n hn
    match n with
    | 0 => simp [digitsLoop]
    | n + 1 =>
      have hpos : 0 < n + 1 := Nat.succ_pos n
      have hdiv : (n + 1) / b < n + 1 := Nat.div_lt_self hpos hb
      rw [show digitsLoop b (fuel + 1) (n + 1)
            = ((n + 1) % b) :: digitsLoop b fuel ((n + 1) / b) from rfl,
        ih ((n + 1) / b) (by omega), Nat.digits_def' (by omega : 1 < b) hpos]

/-- For a positive argument the `digits or [0]` fallback of `int_to_digits` is not
taken, and the result is the canonical digit expansion. -/
theorem int_to_digits_eq_digits (n b : Nat) (hb : 2 ≤ b) (hn : 0 < n) :
    int_to_digits n b = Nat.digits b n := by
  rw [int_to_digits, digitsLoop_eq_digits b hb n n (Nat.le_refl n)]
  have hne : Nat.digits b n ≠ [] := Nat.digits_ne_nil_iff_ne_zero.mpr (by omega)
  cases h : Nat.digits b n with
  | nil => exact absurd h hne
  | cons d ds => rfl

/-- Unfolding `digits_to_int` by one digit: the accumulator pass over the reversed list
multiplies the value of the tail by the base and adds the head. -/
theorem digits_to_int_cons (d : Nat) (ds : List Nat) (b : Nat) :
    digits_to_int (d :: ds) b = digits_to_int ds b * b + d := by
  simp [digits_to_int, List.foldl_append]

/-- The accumulator loop of `digits_to_int` computes the positional value of a
least-significant-first digit list, i.e. `Nat.ofDigits`. -/
theorem digits_to_int_eq_ofDigits (ds : List Nat) (b : Nat) :
    digits_to_int ds b = Nat.ofDigits b ds := by
  induction ds with
  | nil => simp [digits_to_int]
  | cons d ds ih =>
    rw [digits_to_int_cons, ih, Nat.ofDigits_cons]
    ring

/-- Claim C3: for every `n ≥ 0` and base `b ≥ 2`, `digits_to_int (int_to_digits n b) b
= n`; `int_to_digits` returns the least-significant-digit-first digit sequence of `n`
(the canonical `Nat.digits` expansion when `n > 0`) and returns `[0]` for `n = 0`. -/
theorem int_to_digits_round_trip (n b : Nat) (hb : 2 ≤ b) :
    digits_to_int (int_to_digits n b) b = n ∧
    int_to_digits 0 b = [0] ∧
    (0 < n → int_to_digits n b = Nat.digits b n) := by
  refine ⟨?_, rfl, fun hn => int_to_digits_eq_digits n b hb hn⟩
  rcases Nat.eq_zero_or_pos n with hn | hn
  · subst hn
    simp [int_to_digits, digitsLoop, digits_to_int]
  · rw [int_to_digits_eq_digits n b hb hn, digits_to_int_eq_ofDigits, Nat.ofDigits_digits]

/-- Witness for C3 at `n = 47`, `b = 10`. -/
theorem int_to_digits_round_trip_witness :
    digits_to_int (int_to_digits 47 10) 10 = 47 ∧
    int_to_digits 0 10 = [0] ∧
    (0 < 47 → int_to_digits 47 10 = Nat.digits 10 47) :=
  int_to_digits_round_trip 47 10 (by decide)

/-! ### Digit codec: batched round trip -/

/-- The digit row of `numbers_to_digits` always has exactly `max_length` columns. -/
theorem digitRow_length (n b L : Nat) : (digitRow n b L).length = L := by
  simp [digitRow]

/-- Peeling the most significant column off a digit row. -/
theorem digitRow_succ (n b L : Nat) :
    digitRow n b (L + 1) = (n / b ^ L % b) :: digitRow n b L := by
  unfold digitRow
  rw [List.range_succ_eq_map, List.map_cons, List.map_map]
  refine congrArg₂ _ (by simp) ?_
  apply List.map_congr_left
  intro j _
  have h : L - (j + 1) = L - 1 - j := by omega
  simp [Function.comp, h]

/-- The weighted sum of one more (most significant) digit. -/
theorem rowVal_cons (b d : Nat) (ds : List Nat) :
    rowVal b (d :: ds) = d * b ^ ds.length + rowVal b ds := by
  unfold rowVal
  rw [show (d :: ds).length = ds.length + 1 from rfl, List.range_succ, List.reverse_append]
  simp

/-- The weighted-sum reduction of `digits_to_numbers` coincides with `rowVal` whenever
the weight count matches the row length. -/
theorem rowVal_of_length (b k : Nat) (r : List Nat) (h : r.length = k) :
    (List.zipWith (fun d k2 => d * b ^ k2) r (List.range k).reverse).sum = rowVal b r := by
  subst h
  rfl

/-- A row of digits below the base has weighted sum below `base ^ length`. -/
theorem rowVal_lt (b : Nat) (row : List Nat) (hb : 0 < b) (h : ∀ v ∈ row, v < b) :
    rowVal b row < b ^ row.length := by
  induction row with
  | nil => simp [rowVal]
  | cons d ds ih =>
    rw [rowVal_cons]
    have hd : d < b := h d (List.mem_cons_self d ds)
    have hds : rowVal b ds < b ^ ds.length := ih (fun v hv => h v (List.mem_cons_of_mem d hv))
    calc d * b ^ ds.length + rowVal b ds
        < d * b ^ ds.length + b ^ ds.length := by omega
      _ = (d + 1) * b ^ ds.length := by ring
      _ ≤ b * b ^ ds.length := Nat.mul_le_mul_right _ (by omega)
      _ = b ^ (d :: ds).length := by rw [show (d :: ds).length = ds.length + 1 from rfl]; ring

/-- Decoding the digit row of `n` recovers `n` modulo `base ^ max_length`. -/
theorem rowVal_digitRow (b L n : Nat) : rowVal b (digitRow n b L) = n % b ^ L := by
  induction L with
  | zero => simp [digitRow, rowVal, Nat.mod_one]
  | succ L ih =>
    rw [digitRow_succ, rowVal_cons, digitRow_length, ih, pow_succ, Nat.mod_mul]
    ring

/-- Core batched round trip: decoding the `max_length`-column encoding of a batch of
numbers recovers the batch, provided every number fits in `max_length` digits. -/
theorem decode_encode_batch (x : List Nat) (b L : Nat) (hx : ∀ v ∈ x, v < b ^ L) :
    digits_to_numbers (numbers_to_digits x b L) b = x := by
  cases x with
  | nil => rfl
  | cons x0 xs =>
    have hhead : ((numbers_to_digits (x0 :: xs) b L).headD []).length = L := by
      simp [numbers_to_digits, digitRow_length]
    unfold digits_to_numbers
    rw [hhead]
    unfold numbers_to_digits
    rw [List.map_map]
    have hmap : ∀ n ∈ x0 :: xs,
        (List.zipWith (fun d k => d * b ^ k) (digitRow n b L) (List.range L).reverse).sum = n := by
      intro n hn
      rw [rowVal_of_length b L (digitRow n b L) (digitRow_length n b L), rowVal_digitRow,
        Nat.mod_eq_of_lt (hx n hn)]
    calc List.map (fun n =>
          (List.zipWith (fun d k => d * b ^ k) (digitRow n b L) (List.range L).reverse).sum)
            (x0 :: xs)
        = List.map id (x0 :: xs) := List.map_congr_left (by simpa using hmap)
      _ = x0 :: xs := List.map_id _

/-- Claim C4: for every batch of non-negative integers `x`, base `b ≥ 2` and
`max_length` `L` large enough that every value of `x` fits in `L` base-`b` digits
(`v < b ^ L`), the batched encode/decode round-trips exactly:
`digits_to_numbers (numbers_to_digits x b L) b = x`. -/
theorem batched_digits_round_trip (x : List Nat) (b L : Nat) (hb : 2 ≤ b)
    (hx : ∀ v ∈ x, v < b ^ L) :
    digits_to_numbers (numbers_to_digits x b L) b = x :=
  decode_encode_batch x b L hx

/-- Witness for C4 at the batch `[10, 2]` of the source comment, base 10, three
columns. -/
theorem batched_digits_round_trip_witness :
    digits_to_numbers (numbers_to_digits [10, 2] 10 3) 10 = [10, 2] :=
  batched_digits_round_trip [10, 2] 10 3 (by decide) (by decide)

/-! ### Batch synthesis: the output block encodes the sum (C1) -/

/-- Membership in a `zipWith` batch decomposes into members of the two inputs. -/
theorem zipWith_mem_decomp {α β γ : Type} {f : α → β → γ} {c : γ} :
    ∀ {a : List α} {b : List β}, c ∈ List.zipWith f a b →
      ∃ x, x ∈ a ∧ ∃ y, y ∈ b ∧ c = f x y := by
  intro a
  induction a with
  | nil => intro b h; simp at h
  | cons x xs ih =>
    intro b h
    cases b with
    | nil => simp at h
    | cons y ys =>
      rcases List.mem_cons.mp h with h0 | h0
      · exact ⟨x, List.mem_cons_self x xs, y, List.mem_cons_self y ys, h0⟩
      · rcases ih h0 with ⟨x2, hx2, y2, hy2, hc⟩
        exact ⟨x2, List.mem_cons_of_mem x hx2, y2, List.mem_cons_of_mem y hy2, hc⟩

/-- Every row produced by `make_digits_random_length` has `max_number_length`
columns. -/
theorem make_digits_random_length_row_length (ML : Nat) (raw : List (List Nat))
    (nd : List Nat) :
    ∀ r ∈ make_digits_random_length ML raw nd, r.length = ML := by
  intro r hr
  rcases zipWith_mem_decomp hr with ⟨row, _, n, _, hre⟩
  simp [hre]

/-- When the raw random digits are below the base, so is every entry of the masked
operand rows (the masked prefix holds zeros). -/
theorem make_digits_random_length_row_lt (ML b : Nat) (raw : List (List Nat))
    (nd : List Nat) (hb : 0 < b) (hraw : ∀ row ∈ raw, ∀ v ∈ row, v < b) :
    ∀ r ∈ make_digits_random_length ML raw nd, ∀ v ∈ r, v < b := by
  intro r hr v hv
  rcases zipWith_mem_decomp hr with ⟨row, hrow, n, _, hre⟩
  subst hre
  rcases List.mem_map.mp hv with ⟨j, _, hj⟩
  by_cases hjn : j < n
  · rw [if_pos hjn] at hj
    omega
  · rw [if_neg hjn] at hj
    subst hj
    by_cases hlen : j < row.length
    · rw [List.getD_eq_getElem row 0 hlen]
      exact hraw row hrow _ (List.getElem_mem hlen)
    · rw [List.getD_eq_default row 0 (by omega)]
      exact hb

/-- Decoded values of a rectangular digit batch with entries below the base are bounded
by `base ^ (column count)`. -/
theorem digits_to_numbers_lt (dgs : List (List Nat)) (b ML : Nat) (hb : 0 < b)
    (hlen : ∀ r ∈ dgs, r.length = ML) (hent : ∀ r ∈ dgs, ∀ v ∈ r, v < b) :
    ∀ v ∈ digits_to_numbers dgs b, v < b ^ ML := by
  intro v hv
  unfold digits_to_numbers at hv
  rcases List.mem_map.mp hv with ⟨r, hr, hre⟩
  have hML : (dgs.headD []).length = ML := by
    cases dgs with
    | nil => simp at hr
    | cons r0 rest => exact hlen r0 (List.mem_cons_self r0 rest)
  rw [hML, rowVal_of_length b ML r (hlen r hr)] at hre
  subst hre
  have := rowVal_lt b r hb (hent r hr)
  rwa [hlen r hr] at this

/-- Every element of the `sums` intermediate of `generate_batch` fits in
`number_length + 1` digits. -/
theorem gb_sums_lt (ds : AdditionDataset) (raw0 raw1 : List (List Nat)) (n0 n1 : List Nat)
    (hb : 2 ≤ ds.base)
    (hd0 : ∀ row ∈ raw0, ∀ v ∈ row, v < ds.base)
    (hd1 : ∀ row ∈ raw1, ∀ v ∈ row, v < ds.base) :
    ∀ v ∈ ds.gb_sums raw0 raw1 n0 n1, v < ds.base ^ (ds.number_length + 1) := by
  intro v hv
  unfold AdditionDataset.gb_sums at hv
  rcases zipWith_mem_decomp hv with ⟨x, hx, y, hy, hv2⟩
  have hbpos : 0 < ds.base := by omega
  have hx2 : x < ds.base ^ ds.number_length :=
    digits_to_numbers_lt _ _ _ hbpos
      (make_digits_random_length_row_length _ _ _)
      (make_digits_random_length_row_lt _ _ _ _ hbpos hd0) x hx
  have hy2 : y < ds.base ^ ds.number_length :=
    digits_to_numbers_lt _ _ _ hbpos
      (make_digits_random_length_row_length _ _ _)
      (make_digits_random_length_row_lt _ _ _ _ hbpos hd1) y hy
  subst hv2
  calc x + y < 2 * ds.base ^ ds.number_length := by omega
    _ ≤ ds.base * ds.base ^ ds.number_length :=
        Nat.mul_le_mul_right _ hb
    _ = ds.base ^ (ds.number_length + 1) := by ring

/-- Claim C1: the `out_digits` block of `generate_batch` (before the leading-zero to
padding replacement) encodes exactly the sum of the two operands: for every batch size
`bs ≥ 1` and base `≥ 2`, decoding it with `digits_to_numbers` yields the element-wise
sum of the decoded operand blocks (`gb_sums`). -/
theorem generate_batch_out_digits_decode_sum (ds : AdditionDataset) (bs : Nat)
    (raw0 raw1 : List (List Nat)) (n0 n1 : List Nat)
    (hbs : 1 ≤ bs) (hb : 2 ≤ ds.base)
    (hl0 : raw0.length = bs) (hl1 : raw1.length = bs)
    (hn0 : n0.length = bs) (hn1 : n1.length = bs)
    (hd0 : ∀ row ∈ raw0, ∀ v ∈ row, v < ds.base)
    (hd1 : ∀ row ∈ raw1, ∀ v ∈ row, v < ds.base) :
    digits_to_numbers (ds.gb_out_digits raw0 raw1 n0 n1) ds.base =
      ds.gb_sums raw0 raw1 n0 n1 := by
  unfold AdditionDataset.gb_out_digits
  exact decode_encode_batch _ _ _ (gb_sums_lt ds raw0 raw1 n0 n1 hb hd0 hd1)

/-- Witness for C1: base 10, one row, operand digit blocks `[0, 7]` (value 7) and
`[0, 3]` (value 3); the output digits decode to `[10]`. -/
theorem generate_batch_out_digits_decode_sum_witness :
    digits_to_numbers
        (AdditionDataset.gb_out_digits ⟨1, 10, 2⟩ [[0, 7]] [[0, 3]] [0] [0]) 10 = [10] :=
  (generate_batch_out_digits_decode_sum ⟨1, 10, 2⟩ 1 [[0, 7]] [[0, 3]] [0] [0]
    (by decide) (by decide) (by decide) (by decide) (by decide) (by decide)
    (by decide) (by decide)).trans (by decide)

/-! ### Stable padding partition (C5) -/

/-- The keying pass preserves the row length. -/
theorem sortingKeys_length (pad len : Nat) :
    ∀ (row : List Nat) (off : Nat), (sortingKeys pad len off row).length = row.length := by
  intro row
  induction row with
  | nil => intro off; rfl
  | cons v rest ih => intro off; simp [sortingKeys, ih]

/-- Dropping the keys from the non-padding pairs of a keyed row recovers the non-padding
values of the row, in order. -/
theorem sortingKeys_filter_map_snd (pad len : Nat) :
    ∀ (row : List Nat) (off : Nat),
      ((sortingKeys pad len off row).filter (fun p => p.2 ≠ pad)).map Prod.snd =
        row.filter (fun v => v ≠ pad) := by
  intro row
  induction row with
  | nil => intro off; rfl
  | cons v rest ih =>
    intro off
    rw [sortingKeys]
    by_cases hv : v = pad
    · rw [List.filter_cons_of_neg (by simp [hv]), List.filter_cons_of_neg (by simp [hv])]
      exact ih (off + 1)
    · rw [List.filter_cons_of_pos (by simp [hv]), List.filter_cons_of_pos (by simp [hv]),
        List.map_cons, ih (off + 1)]

/-- Every non-padding pair of a keyed row carries its column index as key: at least the
starting offset and strictly below the padding key. -/
theorem sortingKeys_filter_bounds (pad len : Nat) :
    ∀ (row : List Nat) (off : Nat), off + row.length ≤ len →
      ∀ p ∈ (sortingKeys pad len off row).filter (fun p => p.2 ≠ pad),
        off ≤ p.1 ∧ p.1 < len := by
  intro row
  induction row with
  | nil => intro off _ p hp; simp [sortingKeys] at hp
  | cons v rest ih =>
    intro off hoff p hp
    rw [show (v :: rest).length = rest.length + 1 from rfl] at hoff
    rw [sortingKeys] at hp
    by_cases hv : v = pad
    · rw [List.filter_cons_of_neg (by simp [hv])] at hp
      have := ih (off + 1) (by omega) p hp
      omega
    · rw [List.filter_cons_of_pos (by simp [hv])] at hp
      rcases List.mem_cons.mp hp with h0 | h0
      · subst h0
        rw [if_pos hv]
        constructor
        · exact Nat.le_refl off
        · omega
      · have := ih (off + 1) (by omega) p h0
        omega

/-- Inserting a pair whose key is below the whole list places it at the front. -/
theorem orderedInsert_of_forall_le (x : Nat × Nat) (l : List (Nat × Nat))
    (h : ∀ p ∈ l, keyLE x p) : List.orderedInsert keyLE x l = x :: l := by
  cases l with
  | nil => rfl
  | cons y ys =>
    rw [List.orderedInsert, if_pos (h y (List.mem_cons_self y ys))]

/-- Inserting a pair whose key is above a whole prefix walks past that prefix. -/
theorem orderedInsert_append_right (x : Nat × Nat) (A B : List (Nat × Nat))
    (h : ∀ p ∈ A, ¬ keyLE x p) :
    List.orderedInsert keyLE x (A ++ B) = A ++ List.orderedInsert keyLE x B := by
  induction A with
  | nil => rfl
  | cons a A ih =>
    rw [List.cons_append, List.orderedInsert, if_neg (h a (List.mem_cons_self a A)),
      ih (fun p hp => h p (List.mem_cons_of_mem a hp)), List.cons_append]

/-- Sorting a keyed row by key produces the non-padding pairs in column order followed
by one padding pair per padding value of the row: the sort of
`move_padding_to_end` is a stable partition. -/
theorem insertionSort_sortingKeys (pad len : Nat) :
    ∀ (row : List Nat) (off : Nat), off + row.length ≤ len →
      List.insertionSort keyLE (sortingKeys pad len off row) =
        (sortingKeys pad len off row).filter (fun p => p.2 ≠ pad) ++
          List.replicate (row.count pad) (len, pad) := by
  intro row
  induction row with
  | nil => intro off _; rfl
  | cons v rest ih =>
    intro off hoff
    rw [show (v :: rest).length = rest.length + 1 from rfl] at hoff
    have ihr := ih (off + 1) (by omega)
    rw [sortingKeys, List.insertionSort, ihr]
    by_cases hv : v = pad
    · rw [if_neg (by simpa using hv)]
      rw [orderedInsert_append_right _ _ _ (fun p hp => by
        have := sortingKeys_filter_bounds pad len rest (off + 1) (by omega) p hp
        simp only [keyLE, not_le]
        omega)]
      rw [orderedInsert_of_forall_le _ _ (fun p hp => by
        have h2 := List.eq_of_mem_replicate hp
        subst h2
        simp [keyLE])]
      rw [List.filter_cons_of_neg (by simp [hv]), hv, List.count_cons_self,
        List.replicate_succ]
    · rw [if_pos hv]
      rw [orderedInsert_of_forall_le _ _ (fun p hp => by
        rcases List.mem_append.mp hp with h0 | h0
        · have := sortingKeys_filter_bounds pad len rest (off + 1) (by omega) p h0
          simp only [keyLE]
          omega
        · have h2 := List.eq_of_mem_replicate h0
          subst h2
          simp only [keyLE]
          omega)]
      rw [List.filter_cons_of_pos (by simp [hv]), List.count_cons_of_ne (Ne.symm hv),
        List.cons_append]

/-- One row of `move_padding_to_end` equals the stable partition of the row: the
non-padding values in their original order, followed by all its padding values. -/
theorem move_padding_to_end_row_eq (row : List Nat) (pad : Nat) :
    move_padding_to_end_row row pad =
      row.filter (fun v => v ≠ pad) ++ List.replicate (row.count pad) pad := by
  unfold move_padding_to_end_row
  rw [insertionSort_sortingKeys pad row.length row 0 (by omega), List.map_append,
    sortingKeys_filter_map_snd, List.map_replicate]

/-- Moving padding to the end never changes the row length. -/
theorem move_padding_to_end_row_length (row : List Nat) (pad : Nat) :
    (move_padding_to_end_row row pad).length = row.length := by
  unfold move_padding_to_end_row
  rw [List.length_map, (List.perm_insertionSort keyLE _).length_eq, sortingKeys_length]

/-- Claim C5: for every 2-D integer tensor and padding value, `move_padding_to_end`
maps each row to its non-padding tokens in their original relative order followed by all
its padding tokens: padding ends up after everything else and the rest is not
reordered. -/
theorem move_padding_to_end_spec (tensor : List (List Nat)) (padding_token : Nat) :
    move_padding_to_end tensor padding_token =
      tensor.map (fun row =>
        row.filter (fun v => v ≠ padding_token) ++
          List.replicate (row.count padding_token) padding_token) := by
  unfold move_padding_to_end
  exact List.map_congr_left (fun row _ => move_padding_to_end_row_eq row padding_token)

/-- The cumulative-sum mask condition: the inclusive prefix sum at column j of a row of
non-negative entries is zero exactly when every entry up to column j is zero. -/
theorem take_sum_zero_iff (row : List Nat) (j : Nat) :
    (row.take (j + 1)).sum = 0 ↔ ∀ i < j + 1, row.getD i 0 = 0 := by
  rw [List.sum_eq_zero_iff]
  constructor
  · intro h i hi
    by_cases hlen : i < row.length
    · rw [List.getD_eq_getElem row 0 hlen]
      have hlt : i < (row.take (j + 1)).length := by
        rw [List.length_take]
        omega
      have hmem : (row.take (j + 1))[i] ∈ row.take (j + 1) := List.getElem_mem hlt
      have heq : (row.take (j + 1))[i] = row[i] := List.getElem_take row
      rw [heq] at hmem
      exact h _ hmem
    · exact List.getD_eq_default row 0 (by omega)
  · intro h x hx
    rcases List.mem_iff_getElem.mp hx with ⟨i, hi, hxe⟩
    have hi2 := hi
    rw [List.length_take] at hi2
    have hlen : i < row.length := by omega
    have hij : i < j + 1 := by omega
    rw [List.getElem_take] at hxe
    rw [← hxe, ← List.getD_eq_getElem row 0 hlen]
    exact h i hij

/-- The leading-zero replacement never changes the row length. -/
theorem leading_zeros_to_padding_row_length (row : List Nat) (pad : Nat) :
    (leading_zeros_to_padding_row row pad).length = row.length := by
  simp [leading_zeros_to_padding_row]

/-- Pointwise characterisation of the leading-zero replacement: column j becomes the
padding token exactly when all digits up to j are zero and j is not the last column;
every other column is unchanged. -/
theorem leading_zeros_to_padding_row_getD (row : List Nat) (pad j : Nat)
    (hj : j < row.length) :
    (leading_zeros_to_padding_row row pad).getD j 0 =
      if (∀ i < j + 1, row.getD i 0 = 0) ∧ j + 1 ≠ row.length then pad
      else row.getD j 0 := by
  unfold leading_zeros_to_padding_row
  rw [List.getD_eq_getElem _ 0 (by simp [hj]), List.getElem_map, List.getElem_range]
  simp only [take_sum_zero_iff]

/-- An all-zero row becomes all padding except its final column, which keeps the 0. -/
theorem leading_zeros_to_padding_row_all_zero (row : List Nat) (pad : Nat)
    (hne : row ≠ []) (hz : ∀ v ∈ row, v = 0) :
    leading_zeros_to_padding_row row pad = List.replicate (row.length - 1) pad ++ [0] := by
  have hlen : 0 < row.length := List.length_pos.mpr hne
  unfold leading_zeros_to_padding_row
  apply List.ext_getElem
  · simp
    omega
  · intro n h1 h2
    have hn : n < row.length := by simpa using h1
    rw [List.getElem_map, List.getElem_range]
    have hsum : (row.take (n + 1)).sum = 0 :=
      List.sum_eq_zero_iff.mpr (fun x hx => hz x (List.mem_of_mem_take hx))
    by_cases hlast : n + 1 = row.length
    · rw [if_neg (by simp [hlast])]
      have hrep : (List.replicate (row.length - 1) pad).length ≤ n := by
        simp
        omega
      rw [List.getElem_append_right hrep]
      simp
      rw [List.getElem?_eq_getElem hn]
      simpa using hz _ (List.getElem_mem hn)
    · rw [if_pos ⟨hsum, hlast⟩]
      have hrep : n < (List.replicate (row.length - 1) pad).length := by
        simp
        omega
      rw [List.getElem_append_left hrep]
      simp

/-- Claim C6: leading_zeros_to_padding_ works row by row and replaces in each row
exactly the leading run of zero digits with the padding token, never touching the last
column; an all-zero row becomes all padding except its final column, which stays 0. -/
theorem leading_zeros_to_padding_spec (digits : List (List Nat)) (padding_token : Nat) :
    leading_zeros_to_padding digits padding_token =
      digits.map (fun row => leading_zeros_to_padding_row row padding_token) ∧
    ∀ row ∈ digits,
      (∀ j, j < row.length →
          (leading_zeros_to_padding_row row padding_token).getD j 0 =
            if (∀ i < j + 1, row.getD i 0 = 0) ∧ j + 1 ≠ row.length then padding_token
            else row.getD j 0) ∧
        (row ≠ [] → (∀ v ∈ row, v = 0) →
          leading_zeros_to_padding_row row padding_token =
            List.replicate (row.length - 1) padding_token ++ [0]) := by
  refine ⟨rfl, fun row _ =>
    ⟨fun j hj => leading_zeros_to_padding_row_getD row padding_token j hj,
      fun hne hz => leading_zeros_to_padding_row_all_zero row padding_token hne hz⟩⟩

/-- Witness for C6 on the all-zero row [0, 0] with padding token 12. -/
theorem leading_zeros_to_padding_spec_witness :
    leading_zeros_to_padding_row [0, 0] 12 = List.replicate 1 12 ++ [0] :=
  ((leading_zeros_to_padding_spec [[0, 0]] 12).2 [0, 0] (by decide)).2 (by decide) (by decide)

/-- For base at least 3, the number 2 * base ^ k has exactly k + 1 digits (leading
digit 2). -/
theorem int_to_digits_two_mul_pow_length (b k : Nat) (hb : 3 ≤ b) :
    (int_to_digits (2 * b ^ k) b).length = k + 1 := by
  have hbk : 0 < b ^ k := pow_pos (by omega) k
  have hpos : 0 < 2 * b ^ k := by omega
  rw [int_to_digits_eq_digits _ _ (by omega) hpos,
    Nat.digits_len b _ (by omega) (by omega)]
  have hlog : Nat.log b (2 * b ^ k) = k := by
    apply Nat.log_eq_of_pow_le_of_lt_pow
    · exact Nat.le_mul_of_pos_left _ (by omega)
    · rw [pow_succ, mul_comm (b ^ k) b]
      exact (Nat.mul_lt_mul_right hbk).mpr (by omega)
  omega

/-- For base at least 3 the seq bound evaluates to 3 * number_length + 4:
2 * (number_length + 1) input columns plus number_length + 2 output columns (including
the eos slot). -/
theorem seq_eq_of_three_le_base (ds : AdditionDataset) (hb : 3 ≤ ds.base) :
    ds.seq = 3 * ds.number_length + 4 := by
  unfold AdditionDataset.seq AdditionDataset.max_input_length AdditionDataset.max_output_length
    AdditionDataset.sequence_length
  rw [int_to_digits_two_mul_pow_length ds.base ds.number_length hb]
  omega

/-- Every row generate_batch returns has exactly 3 * number_length + 4 entries:
two operand blocks, the output block of number_length + 1 columns, and the three marker
tokens; moving padding never changes a row length. -/
theorem generate_batch_row_length (ds : AdditionDataset) (bs : Nat)
    (raw0 raw1 : List (List Nat)) (n0 n1 : List Nat) :
    ∀ row ∈ ds.generate_batch bs raw0 raw1 n0 n1,
      row.length = 3 * ds.number_length + 4 := by
  intro row hrow
  unfold AdditionDataset.generate_batch at hrow
  rcases List.mem_map.mp hrow with ⟨r, hr, hre⟩
  subst hre
  rw [move_padding_to_end_row_length]
  rcases zipWith_mem_decomp hr with ⟨a, ha, r2, hr2, he⟩
  subst he
  rcases zipWith_mem_decomp hr2 with ⟨s, hs, r3, hr3, he⟩
  subst he
  rcases zipWith_mem_decomp hr3 with ⟨b2, hb2, r4, hr4, he⟩
  subst he
  rcases zipWith_mem_decomp hr4 with ⟨e, he2, r5, hr5, he⟩
  subst he
  rcases zipWith_mem_decomp hr5 with ⟨o, ho, z, hz, he⟩
  subst he
  have hal : a.length = ds.number_length := by
    rcases List.mem_map.mp ha with ⟨a0, ha0, hae⟩
    subst hae
    rw [leading_zeros_to_padding_row_length]
    exact make_digits_random_length_row_length _ _ _ a0 ha0
  have hbl : b2.length = ds.number_length := by
    rcases List.mem_map.mp hb2 with ⟨b0, hb0, hbe⟩
    subst hbe
    rw [leading_zeros_to_padding_row_length]
    exact make_digits_random_length_row_length _ _ _ b0 hb0
  have hol : o.length = ds.number_length + 1 := by
    rcases List.mem_map.mp ho with ⟨o0, ho0, hoe⟩
    subst hoe
    rw [leading_zeros_to_padding_row_length]
    rcases List.mem_map.mp ho0 with ⟨m, _, hme⟩
    subst hme
    exact digitRow_length _ _ _
  have hsl : s.length = 1 := by rw [List.eq_of_mem_replicate hs]; rfl
  have hel : e.length = 1 := by rw [List.eq_of_mem_replicate he2]; rfl
  have hzl : z.length = 1 := by rw [List.eq_of_mem_replicate hz]; rfl
  simp only [List.length_append]
  omega

/-- generate_batch returns one row per batch element. -/
theorem generate_batch_num_rows (ds : AdditionDataset) (bs : Nat)
    (raw0 raw1 : List (List Nat)) (n0 n1 : List Nat)
    (hl0 : raw0.length = bs) (hl1 : raw1.length = bs)
    (hn0 : n0.length = bs) (hn1 : n1.length = bs) :
    (ds.generate_batch bs raw0 raw1 n0 n1).length = bs := by
  unfold AdditionDataset.generate_batch AdditionDataset.gb_out_digits AdditionDataset.gb_sums
  simp [move_padding_to_end, hcat, leading_zeros_to_padding, make_digits_random_length,
    numbers_to_digits, digits_to_numbers, hl0, hl1, hn0, hn1]

/-- Claim C2 (amended): for every base at least 3, number_length at least 1 and batch
size bs at least 1, generate_batch returns bs rows each of length seq.  (As claimed,
with base 2 excluded: for base 2 the rows have length seq - 1, see the
counterexample.) -/
theorem generate_batch_shape_of_three_le_base (ds : AdditionDataset) (bs : Nat)
    (raw0 raw1 : List (List Nat)) (n0 n1 : List Nat)
    (hb : 3 ≤ ds.base) (hnl : 1 ≤ ds.number_length) (hbs : 1 ≤ bs)
    (hl0 : raw0.length = bs) (hl1 : raw1.length = bs)
    (hn0 : n0.length = bs) (hn1 : n1.length = bs) :
    (ds.generate_batch bs raw0 raw1 n0 n1).length = bs ∧
    ∀ row ∈ ds.generate_batch bs raw0 raw1 n0 n1, row.length = ds.seq := by
  refine ⟨generate_batch_num_rows ds bs raw0 raw1 n0 n1 hl0 hl1 hn0 hn1, fun row hrow => ?_⟩
  rw [generate_batch_row_length ds bs raw0 raw1 n0 n1 row hrow, seq_eq_of_three_le_base ds hb]

/-- Witness for the amended C2 at base 3, number_length 1, bs 1. -/
theorem generate_batch_shape_witness :
    (AdditionDataset.generate_batch ⟨1, 3, 1⟩ 1 [[1]] [[1]] [0] [0]).length = 1 ∧
    ∀ row ∈ AdditionDataset.generate_batch ⟨1, 3, 1⟩ 1 [[1]] [[1]] [0] [0],
      row.length = AdditionDataset.seq ⟨1, 3, 1⟩ :=
  generate_batch_shape_of_three_le_base ⟨1, 3, 1⟩ 1 [[1]] [[1]] [0] [0]
    (by decide) (by decide) (by decide) (by decide) (by decide) (by decide) (by decide)

/-- Counterexample to C2 as stated: at base 2 and number_length 1 the single generated
row has length 7 while seq is 8 (int_to_digits (2 * 2 ^ 1) 2 has 3 digits, not 2), so
the claimed shape (bs, seq) fails. -/
theorem generate_batch_shape_base_two_counterexample :
    (AdditionDataset.generate_batch ⟨1, 2, 1⟩ 1 [[1]] [[1]] [0] [0]).map List.length = [7] ∧
    AdditionDataset.seq ⟨1, 2, 1⟩ = 8 ∧
    ¬ (∀ row ∈ AdditionDataset.generate_batch ⟨1, 2, 1⟩ 1 [[1]] [[1]] [0] [0],
        row.length = AdditionDataset.seq ⟨1, 2, 1⟩) := by
  refine ⟨by decide, by decide, ?_⟩
  decide

/-- Every entry of a processed row is either the padding token or an entry of the
original row. -/
theorem leading_zeros_to_padding_row_mem (row : List Nat) (pad : Nat) :
    ∀ v ∈ leading_zeros_to_padding_row row pad, v = pad ∨ v ∈ row := by
  intro v hv
  unfold leading_zeros_to_padding_row at hv
  rcases List.mem_map.mp hv with ⟨j, hj, hje⟩
  rw [List.mem_range] at hj
  by_cases hc : (row.take (j + 1)).sum = 0 ∧ j + 1 ≠ row.length
  · rw [if_pos hc] at hje
    exact Or.inl hje.symm
  · rw [if_neg hc] at hje
    right
    rw [← hje, List.getD_eq_getElem row 0 hj]
    exact List.getElem_mem hj

/-- Every entry of an encoded digit row is a digit, i.e. below the base. -/
theorem digitRow_mem_lt (n b L : Nat) (hb : 0 < b) : ∀ v ∈ digitRow n b L, v < b := by
  intro v hv
  rcases List.mem_map.mp hv with ⟨j, _, hje⟩
  exact hje ▸ Nat.mod_lt _ hb

/-- Claim C7: every row of generate_batch contains exactly one separator, one end and
one eos token, in that relative order (their subsequence is exactly
[separator, end, eos]); and the four reserved token ids base, base + 1, base + 2,
base + 3 never collide with a digit value below the base. -/
theorem generate_batch_marker_tokens (ds : AdditionDataset) (bs : Nat)
    (raw0 raw1 : List (List Nat)) (n0 n1 : List Nat)
    (hb : 2 ≤ ds.base)
    (hd0 : ∀ row ∈ raw0, ∀ v ∈ row, v < ds.base)
    (hd1 : ∀ row ∈ raw1, ∀ v ∈ row, v < ds.base) :
    (∀ row ∈ ds.generate_batch bs raw0 raw1 n0 n1,
      row.filter (fun v => v = ds.separator_token ∨ v = ds.end_token ∨ v = ds.eos_token) =
        [ds.separator_token, ds.end_token, ds.eos_token]) ∧
    (∀ d, d < ds.base → d ≠ ds.end_token ∧ d ≠ ds.separator_token ∧
      d ≠ ds.padding_token ∧ d ≠ ds.eos_token) := by
  constructor
  · intro row hrow
    unfold AdditionDataset.generate_batch at hrow
    rcases List.mem_map.mp hrow with ⟨r, hr, hre⟩
    subst hre
    rw [move_padding_to_end_row_eq, List.filter_append]
    have hrepl : (List.replicate (r.count ds.padding_token) ds.padding_token).filter
        (fun v => v = ds.separator_token ∨ v = ds.end_token ∨ v = ds.eos_token) = [] := by
      rw [List.filter_eq_nil_iff]
      intro x hx
      rw [List.eq_of_mem_replicate hx]
      simp [AdditionDataset.separator_token, AdditionDataset.end_token,
        AdditionDataset.eos_token, AdditionDataset.padding_token]
    rw [hrepl, List.append_nil]
    rw [List.filter_filter]
    have hcong : List.filter
        (fun v => decide (v = ds.separator_token ∨ v = ds.end_token ∨ v = ds.eos_token) &&
          decide (v ≠ ds.padding_token)) r =
        List.filter (fun v => v = ds.separator_token ∨ v = ds.end_token ∨ v = ds.eos_token) r := by
      apply List.filter_congr
      intro v _
      by_cases hv : v = ds.padding_token
      · subst hv
        simp [AdditionDataset.separator_token, AdditionDataset.end_token,
          AdditionDataset.eos_token, AdditionDataset.padding_token]
      · simp [hv]
    rw [hcong]
    rcases zipWith_mem_decomp hr with ⟨a, ha, r2, hr2, he⟩
    subst he
    rcases zipWith_mem_decomp hr2 with ⟨s, hs, r3, hr3, he⟩
    subst he
    rcases zipWith_mem_decomp hr3 with ⟨b2, hb2, r4, hr4, he⟩
    subst he
    rcases zipWith_mem_decomp hr4 with ⟨e, he2, r5, hr5, he⟩
    subst he
    rcases zipWith_mem_decomp hr5 with ⟨o, ho, z, hz, he⟩
    subst he
    have hnotP : ∀ (blk : List Nat), (∀ v ∈ blk, v = ds.padding_token ∨ v < ds.base) →
        blk.filter (fun v => v = ds.separator_token ∨ v = ds.end_token ∨ v = ds.eos_token)
          = [] := by
      intro blk hblk
      rw [List.filter_eq_nil_iff]
      intro x hx
      rcases hblk x hx with h0 | h0
      · subst h0
        simp [AdditionDataset.separator_token, AdditionDataset.end_token,
          AdditionDataset.eos_token, AdditionDataset.padding_token]
      · simp only [decide_eq_true_eq]
        unfold AdditionDataset.separator_token AdditionDataset.end_token
          AdditionDataset.eos_token at *
        omega
    have hafilter : a.filter
        (fun v => v = ds.separator_token ∨ v = ds.end_token ∨ v = ds.eos_token) = [] := by
      apply hnotP
      intro v hv
      rcases List.mem_map.mp ha with ⟨a0, ha0, hae⟩
      subst hae
      rcases leading_zeros_to_padding_row_mem a0 ds.padding_token v hv with h0 | h0
      · exact Or.inl h0
      · exact Or.inr (make_digits_random_length_row_lt _ _ _ _ (by omega) hd0 a0 ha0 v h0)
    have hbfilter : b2.filter
        (fun v => v = ds.separator_token ∨ v = ds.end_token ∨ v = ds.eos_token) = [] := by
      apply hnotP
      intro v hv
      rcases List.mem_map.mp hb2 with ⟨b0, hb0, hbe⟩
      subst hbe
      rcases leading_zeros_to_padding_row_mem b0 ds.padding_token v hv with h0 | h0
      · exact Or.inl h0
      · exact Or.inr (make_digits_random_length_row_lt _ _ _ _ (by omega) hd1 b0 hb0 v h0)
    have hofilter : o.filter
        (fun v => v = ds.separator_token ∨ v = ds.end_token ∨ v = ds.eos_token) = [] := by
      apply hnotP
      intro v hv
      rcases List.mem_map.mp ho with ⟨o0, ho0, hoe⟩
      subst hoe
      rcases leading_zeros_to_padding_row_mem o0 ds.padding_token v hv with h0 | h0
      · exact Or.inl h0
      · rcases List.mem_map.mp ho0 with ⟨m, _, hme⟩
        subst hme
        exact Or.inr (digitRow_mem_lt m ds.base _ (by omega) v h0)
    rw [List.eq_of_mem_replicate hs, List.eq_of_mem_replicate he2, List.eq_of_mem_replicate hz]
    simp only [List.filter_append, hafilter, hbfilter, hofilter, List.nil_append,
      List.append_nil]
    rw [List.filter_cons_of_pos (by simp), List.filter_nil,
      List.filter_cons_of_pos (by simp), List.filter_nil,
      List.filter_cons_of_pos (by simp), List.filter_nil]
    rfl
  · intro d hd
    unfold AdditionDataset.separator_token AdditionDataset.end_token
      AdditionDataset.eos_token AdditionDataset.padding_token
    omega

/-- Witness for C7 at base 10, one row, operands [0, 7] and [0, 3]. -/
theorem generate_batch_marker_tokens_witness :
    (∀ row ∈ AdditionDataset.generate_batch ⟨1, 10, 2⟩ 1 [[0, 7]] [[0, 3]] [0] [0],
      row.filter (fun v => v = AdditionDataset.separator_token ⟨1, 10, 2⟩ ∨
          v = AdditionDataset.end_token ⟨1, 10, 2⟩ ∨ v = AdditionDataset.eos_token ⟨1, 10, 2⟩) =
        [AdditionDataset.separator_token ⟨1, 10, 2⟩, AdditionDataset.end_token ⟨1, 10, 2⟩,
          AdditionDataset.eos_token ⟨1, 10, 2⟩]) ∧
    (∀ d, d < AdditionDataset.base ⟨1, 10, 2⟩ →
      d ≠ AdditionDataset.end_token ⟨1, 10, 2⟩ ∧ d ≠ AdditionDataset.separator_token ⟨1, 10, 2⟩ ∧
      d ≠ AdditionDataset.padding_token ⟨1, 10, 2⟩ ∧ d ≠ AdditionDataset.eos_token ⟨1, 10, 2⟩) :=
  generate_batch_marker_tokens ⟨1, 10, 2⟩ 1 [[0, 7]] [[0, 3]] [0] [0]
    (by decide) (by decide) (by decide)

/-- One epoch never decreases number_length and never decreases any counter entry. -/
theorem epoch_update_mono (s : TrainState) (acc : Rat) :
    s.number_length ≤ (epoch_update s acc).number_length ∧
    ∀ k, s.time_to_success k ≤ (epoch_update s acc).time_to_success k := by
  unfold epoch_update
  by_cases h : acc > 9 / 10
  · rw [if_pos h]
    refine ⟨Nat.le_succ _, fun k => ?_⟩
    by_cases hk : k = s.number_length
    · simp [hk]
    · simp [hk]
  · rw [if_neg h]
    refine ⟨Nat.le_refl _, fun k => ?_⟩
    by_cases hk : k = s.number_length
    · simp [hk]
    · simp [hk]

/-- Claim C9: across every execution of the training loop, for every accuracy stream
and every starting state, number_length never decreases (the curriculum is a one-way
ratchet) and every entry of the time_to_success counter only ever grows, never being
reset. -/
theorem curriculum_ratchet_monotone (accs : List Rat) (s : TrainState) :
    s.number_length ≤ (manual_training_loop accs s).number_length ∧
    ∀ k, s.time_to_success k ≤ (manual_training_loop accs s).time_to_success k := by
  induction accs generalizing s with
  | nil => exact ⟨Nat.le_refl _, fun k => Nat.le_refl _⟩
  | cons a rest ih =>
    have h1 := epoch_update_mono s a
    have h2 := ih (epoch_update s a)
    unfold manual_training_loop at h2 ⊢
    rw [List.foldl_cons]
    exact ⟨le_trans h1.1 h2.1, fun k => le_trans (h1.2 k) (h2.2 k)⟩

/-- Claim C8: with validation accuracy stream [0.5, 0.95] from number_length 1, the
first epoch does not increment (0.5 is not above the 0.9 threshold), after the second
epoch number_length is 2 (incremented exactly once, right after the second validation),
and time_to_success at length 1 is then 2. -/
theorem curriculum_stream_increments_once :
    (epoch_update { number_length := 1, time_to_success := fun _ => 0 }
        ((1 : Rat) / 2)).number_length = 1 ∧
    (manual_training_loop [(1 : Rat) / 2, 19 / 20]
        { number_length := 1, time_to_success := fun _ => 0 }).number_length = 2 ∧
    (manual_training_loop [(1 : Rat) / 2, 19 / 20]
        { number_length := 1, time_to_success := fun _ => 0 }).time_to_success 1 = 2 := by
  refine ⟨?_, ?_, ?_⟩ <;> norm_num [manual_training_loop, epoch_update]

/-- Claim C10: the AdditionDataset(...) call of main in src/train.py passes the
keyword argument sequence_length, which AdditionDataset.__init__ (accepting only
num_samples, base, number_length) does not declare, so the keyword binding fails and
every invocation of main raises TypeError at dataset construction, before any model is
built or trained. -/
theorem main_dataset_construction_type_error :
    main_dataset_construction = Except.error "TypeError" ∧
    pythonCallBinds additionDatasetInitParams mainDatasetCallKeywords = false ∧
    additionDatasetInitParams.contains "sequence_length" = false :=
  ⟨rfl, rfl, rfl⟩
